import Mathlib

/-!
Shallow embedding of the `dolfinx_mpc` geometric utility core declared in
`cpp/utils.h`.  The repository ships only the interface declarations, so the
function bodies below are modelled from the specification (each such
definition is marked `Modelled from the spec:`); the interface types
(64-bit cell ids out of `locate_cells_with_dofs`, 32-bit candidate cells
into `check_cell_point_collision`, `int` cell index into
`get_basis_functions`) are taken from the header itself.

Machine integers are modelled as `Int`/`Nat` with explicit range/wraparound
arithmetic; real coordinates are modelled as exact rationals `ℚ` so the
geometric predicates are executable and decidable.
-/

namespace DolfinxMPC

/-- A 3-component physical or reference coordinate (lower-dimensional cells
pad with zeros), from the spec's data model. -/
structure Pt where
  x : ℚ
  y : ℚ
  z : ℚ
  deriving DecidableEq, Repr

/-- The enumerated cell shape tag (`dolfinx::mesh::CellType` in the header). -/
inductive CellType where
  | interval
  | triangle
  | quadrilateral
  | tetrahedron
  | hexahedron
  | prism
  | pyramid
  deriving DecidableEq, Repr

/-- Number of vertices each shape tag expects; a cell whose vertex list has a
different length is malformed. -/
def expectedVertexCount : CellType → Nat
  | .interval => 2
  | .triangle => 3
  | .quadrilateral => 4
  | .tetrahedron => 4
  | .hexahedron => 8
  | .prism => 6
  | .pyramid => 5

/-- Modelled from the spec: the vertex shape functions of the reference cell
(the weight each vertex carries in the reference-to-physical map), affine
for simplices and multilinear for the tensor shapes; the pyramid is the
collapsed-hexahedron map. -/
def shapeWeights : CellType → Pt → List ℚ
  | .interval, r => [1 - r.x, r.x]
  | .triangle, r => [1 - r.x - r.y, r.x, r.y]
  | .quadrilateral, r =>
      [(1 - r.x) * (1 - r.y), r.x * (1 - r.y), (1 - r.x) * r.y, r.x * r.y]
  | .tetrahedron, r => [1 - r.x - r.y - r.z, r.x, r.y, r.z]
  | .hexahedron, r =>
      [(1 - r.x) * (1 - r.y) * (1 - r.z), r.x * (1 - r.y) * (1 - r.z),
       (1 - r.x) * r.y * (1 - r.z), r.x * r.y * (1 - r.z),
       (1 - r.x) * (1 - r.y) * r.z, r.x * (1 - r.y) * r.z,
       (1 - r.x) * r.y * r.z, r.x * r.y * r.z]
  | .prism, r =>
      [(1 - r.x - r.y) * (1 - r.z), r.x * (1 - r.z), r.y * (1 - r.z),
       (1 - r.x - r.y) * r.z, r.x * r.z, r.y * r.z]
  | .pyramid, r =>
      [(1 - r.x) * (1 - r.y) * (1 - r.z), r.x * (1 - r.y) * (1 - r.z),
       (1 - r.x) * r.y * (1 - r.z), r.x * r.y * (1 - r.z), r.z]

/-- Origin point, used as the default for out-of-range vertex access. -/
def ptZero : Pt := ⟨0, 0, 0⟩

/-- Weighted sum of a vertex list, the common core of the
reference-to-physical map. -/
def weightedSum (ws : List ℚ) (vs : List Pt) : Pt :=
  (ws.zip vs).foldl
    (fun acc wv =>
      ⟨acc.x + wv.1 * wv.2.x, acc.y + wv.1 * wv.2.y, acc.z + wv.1 * wv.2.z⟩)
    ptZero

/-- Modelled from the spec: the forward reference-to-physical map of a cell,
`x = Σ_i φ_i(r) v_i` over the cell's vertices. -/
def forward_map (shape : CellType) (verts : List Pt) (r : Pt) : Pt :=
  weightedSum (shapeWeights shape r) verts

/-- Modelled from the spec: the shape-specific inside-reference-cell test,
linear inequalities on the reference coordinates relaxed by the positive
tolerance; coordinates a lower-dimensional reference cell does not use must
vanish. -/
def inside_reference_cell (shape : CellType) (r : Pt) (tol : ℚ) : Bool :=
  match shape with
  | .interval => decide (-tol ≤ r.x ∧ r.x ≤ 1 + tol ∧ r.y = 0 ∧ r.z = 0)
  | .triangle =>
      decide (-tol ≤ r.x ∧ -tol ≤ r.y ∧ r.x + r.y ≤ 1 + tol ∧ r.z = 0)
  | .quadrilateral =>
      decide (-tol ≤ r.x ∧ r.x ≤ 1 + tol ∧ -tol ≤ r.y ∧ r.y ≤ 1 + tol ∧
        r.z = 0)
  | .tetrahedron =>
      decide (-tol ≤ r.x ∧ -tol ≤ r.y ∧ -tol ≤ r.z ∧
        r.x + r.y + r.z ≤ 1 + tol)
  | .hexahedron =>
      decide (-tol ≤ r.x ∧ r.x ≤ 1 + tol ∧ -tol ≤ r.y ∧ r.y ≤ 1 + tol ∧
        -tol ≤ r.z ∧ r.z ≤ 1 + tol)
  | .prism =>
      decide (-tol ≤ r.x ∧ -tol ≤ r.y ∧ r.x + r.y ≤ 1 + tol ∧
        -tol ≤ r.z ∧ r.z ≤ 1 + tol)
  | .pyramid =>
      decide (-tol ≤ r.x ∧ r.x ≤ 1 + tol ∧ -tol ≤ r.y ∧ r.y ≤ 1 + tol ∧
        -tol ≤ r.z ∧ r.z ≤ 1 + tol)

/-- The small positive boundary tolerance of the inside-test. -/
def collisionTol : ℚ := 1 / 10 ^ 10

/-- The convergence tolerance of the Newton inversion. -/
def newtonTol : ℚ := 1 / 10 ^ 12

/-- The fixed iteration cap of the Newton inversion. -/
def newtonMax : Nat := 10

/-- Rational absolute value used in the convergence test. -/
def qabs (q : ℚ) : ℚ := if q < 0 then -q else q

/-- Modelled from the spec: gradients of the vertex shape functions with
respect to the reference coordinates, used to assemble the Newton Jacobian
for the non-affine shapes. -/
def shapeWeightGrads : CellType → Pt → List Pt
  | .interval, _ => [⟨-1, 0, 0⟩, ⟨1, 0, 0⟩]
  | .triangle, _ => [⟨-1, -1, 0⟩, ⟨1, 0, 0⟩, ⟨0, 1, 0⟩]
  | .quadrilateral, r =>
      [⟨-(1 - r.y), -(1 - r.x), 0⟩, ⟨1 - r.y, -r.x, 0⟩,
       ⟨-r.y, 1 - r.x, 0⟩, ⟨r.y, r.x, 0⟩]
  | .tetrahedron, _ =>
      [⟨-1, -1, -1⟩, ⟨1, 0, 0⟩, ⟨0, 1, 0⟩, ⟨0, 0, 1⟩]
  | .hexahedron, r =>
      [⟨-(1 - r.y) * (1 - r.z), -(1 - r.x) * (1 - r.z), -(1 - r.x) * (1 - r.y)⟩,
       ⟨(1 - r.y) * (1 - r.z), -r.x * (1 - r.z), -r.x * (1 - r.y)⟩,
       ⟨-r.y * (1 - r.z), (1 - r.x) * (1 - r.z), -(1 - r.x) * r.y⟩,
       ⟨r.y * (1 - r.z), r.x * (1 - r.z), -r.x * r.y⟩,
       ⟨-(1 - r.y) * r.z, -(1 - r.x) * r.z, (1 - r.x) * (1 - r.y)⟩,
       ⟨(1 - r.y) * r.z, -r.x * r.z, r.x * (1 - r.y)⟩,
       ⟨-r.y * r.z, (1 - r.x) * r.z, (1 - r.x) * r.y⟩,
       ⟨r.y * r.z, r.x * r.z, r.x * r.y⟩]
  | .prism, r =>
      [⟨-(1 - r.z), -(1 - r.z), -(1 - r.x - r.y)⟩,
       ⟨1 - r.z, 0, -r.x⟩, ⟨0, 1 - r.z, -r.y⟩,
       ⟨-r.z, -r.z, 1 - r.x - r.y⟩, ⟨r.z, 0, r.x⟩, ⟨0, r.z, r.y⟩]
  | .pyramid, r =>
      [⟨-(1 - r.y) * (1 - r.z), -(1 - r.x) * (1 - r.z), -(1 - r.x) * (1 - r.y)⟩,
       ⟨(1 - r.y) * (1 - r.z), -r.x * (1 - r.z), -r.x * (1 - r.y)⟩,
       ⟨-r.y * (1 - r.z), (1 - r.x) * (1 - r.z), -(1 - r.x) * r.y⟩,
       ⟨r.y * (1 - r.z), r.x * (1 - r.z), -r.x * r.y⟩,
       ⟨0, 0, 1⟩]

/-- Sum of vertex-times-gradient-component products: one column of the Newton
Jacobian `J = Σ_i v_i ⊗ ∇φ_i(r)`; `sel` picks the gradient component. -/
def jacColumn (verts : List Pt) (grads : List Pt) (sel : Pt → ℚ) : Pt :=
  (grads.zip verts).foldl
    (fun acc gv =>
      ⟨acc.x + sel gv.1 * gv.2.x, acc.y + sel gv.1 * gv.2.y,
       acc.z + sel gv.1 * gv.2.z⟩)
    ptZero

/-- Modelled from the spec: one pass of the capped Newton iteration for the
non-affine shapes, recursing on the remaining fuel; exhausting the cap, or
meeting a singular Jacobian, signals the `GeometryDegenerate` condition as
`none`.  For the planar quadrilateral only the x/y components are used; for
the volumetric shapes the full 3×3 system is solved by Cramer's rule. -/
def newtonLoop (shape : CellType) (verts : List Pt) (p : Pt) :
    Nat → Pt → Option Pt
  | 0, _ => none
  | fuel + 1, r =>
    let f := forward_map shape verts r
    let rx := p.x - f.x
    let ry := p.y - f.y
    let rz := p.z - f.z
    if qabs rx ≤ newtonTol ∧ qabs ry ≤ newtonTol ∧ qabs rz ≤ newtonTol then
      some r
    else
      let grads := shapeWeightGrads shape r
      let c1 := jacColumn verts grads Pt.x
      let c2 := jacColumn verts grads Pt.y
      match shape with
      | .quadrilateral =>
        let det := c1.x * c2.y - c2.x * c1.y
        if det = 0 then none
        else
          let dx := (rx * c2.y - c2.x * ry) / det
          let dy := (c1.x * ry - rx * c1.y) / det
          newtonLoop shape verts p fuel ⟨r.x + dx, r.y + dy, 0⟩
      | _ =>
        let c3 := jacColumn verts grads Pt.z
        let det := c1.x * (c2.y * c3.z - c3.y * c2.z)
          - c2.x * (c1.y * c3.z - c3.y * c1.z)
          + c3.x * (c1.y * c2.z - c2.y * c1.z)
        if det = 0 then none
        else
          let dx := (rx * (c2.y * c3.z - c3.y * c2.z)
            - c2.x * (ry * c3.z - c3.y * rz)
            + c3.x * (ry * c2.z - c2.y * rz)) / det
          let dy := (c1.x * (ry * c3.z - rz * c3.y)
            - rx * (c1.y * c3.z - c3.y * c1.z)
            + c3.x * (c1.y * rz - ry * c1.z)) / det
          let dz := (c1.x * (c2.y * rz - c2.z * ry)
            - c2.x * (c1.y * rz - ry * c1.z)
            + rx * (c1.y * c2.z - c2.y * c1.z)) / det
          newtonLoop shape verts p fuel ⟨r.x + dx, r.y + dy, r.z + dz⟩

/-- Modelled from the spec: the physical-to-reference inverse map — an exact
affine solve (Cramer's rule) for the simplices, the capped Newton iteration
started at the reference-cell midpoint for the non-affine shapes; `none`
signals the `GeometryDegenerate` condition. -/
def physical_to_reference (shape : CellType) (verts : List Pt) (p : Pt) :
    Option Pt :=
  match shape with
  | .interval =>
    let v0 := verts.getD 0 ptZero
    let v1 := verts.getD 1 ptZero
    let d := v1.x - v0.x
    if d = 0 then none else some ⟨(p.x - v0.x) / d, 0, 0⟩
  | .triangle =>
    let v0 := verts.getD 0 ptZero
    let v1 := verts.getD 1 ptZero
    let v2 := verts.getD 2 ptZero
    let a := v1.x - v0.x
    let b := v2.x - v0.x
    let c := v1.y - v0.y
    let d := v2.y - v0.y
    let det := a * d - b * c
    if det = 0 then none
    else
      let px := p.x - v0.x
      let py := p.y - v0.y
      some ⟨(px * d - b * py) / det, (a * py - px * c) / det, 0⟩
  | .tetrahedron =>
    let v0 := verts.getD 0 ptZero
    let v1 := verts.getD 1 ptZero
    let v2 := verts.getD 2 ptZero
    let v3 := verts.getD 3 ptZero
    let a1 := v1.x - v0.x
    let a2 := v1.y - v0.y
    let a3 := v1.z - v0.z
    let b1 := v2.x - v0.x
    let b2 := v2.y - v0.y
    let b3 := v2.z - v0.z
    let c1 := v3.x - v0.x
    let c2 := v3.y - v0.y
    let c3 := v3.z - v0.z
    let det := a1 * (b2 * c3 - c2 * b3) - b1 * (a2 * c3 - c2 * a3)
      + c1 * (a2 * b3 - b2 * a3)
    if det = 0 then none
    else
      let p1 := p.x - v0.x
      let p2 := p.y - v0.y
      let p3 := p.z - v0.z
      some ⟨(p1 * (b2 * c3 - c2 * b3) - b1 * (p2 * c3 - c2 * p3)
          + c1 * (p2 * b3 - b2 * p3)) / det,
        (a1 * (p2 * c3 - c2 * p3) - p1 * (a2 * c3 - c2 * a3)
          + c1 * (a2 * p3 - p2 * a3)) / det,
        (a1 * (b2 * p3 - b3 * p2) - b1 * (a2 * p3 - p2 * a3)
          + p1 * (a2 * b3 - b2 * a3)) / det⟩
  | .quadrilateral =>
    newtonLoop .quadrilateral verts p newtonMax ⟨1 / 2, 1 / 2, 0⟩
  | .hexahedron =>
    newtonLoop .hexahedron verts p newtonMax ⟨1 / 2, 1 / 2, 1 / 2⟩
  | .prism =>
    newtonLoop .prism verts p newtonMax ⟨1 / 3, 1 / 3, 1 / 2⟩
  | .pyramid =>
    newtonLoop .pyramid verts p newtonMax ⟨1 / 2, 1 / 2, 1 / 2⟩

/-- Modelled from the spec: single-cell point collision — pull the point back
to reference coordinates through the supplied vertex set, then apply the
tolerant inside-test; a `GeometryDegenerate` inversion is treated as
non-containment, never a hard failure. -/
def collision_cell_point (verts : List Pt) (shape : CellType) (p : Pt) :
    Bool :=
  match physical_to_reference shape verts p with
  | none => false
  | some r => inside_reference_cell shape r collisionTol

/-- Modelled from the spec: the element collaborator of a function space —
its value-component count, the tabulated reference basis (basis index,
component, reference point), and the element-specific pushforward, supplied
as a components×components matrix applied to each basis function's value
row (identity for scalar Lagrange elements). -/
structure Element where
  value_components : Nat
  ref_basis : Nat → Nat → Pt → ℚ
  pushforward : Pt → List (List ℚ)

/-- Modelled from the spec: the read-only function-space/mesh collaborator —
the dof map (per cell, the global dofs at their local positions), the shape
tag per cell, the mesh-geometry vertices per cell, the vertices
reconstructed from dof coordinates per cell, and the element. -/
structure FunctionSpace where
  cell_dofs : List (List Nat)
  cell_shape : List CellType
  cell_mesh_vertices : List (List Pt)
  cell_dof_vertices : List (List Pt)
  element : Element

/-- The error taxonomy of the locate call. -/
inductive LocateError where
  | unknownDof : Nat → LocateError
  deriving DecidableEq, Repr

/-- The error taxonomy of a single candidate-cell collision check. -/
inductive CellCheckError where
  | malformedCell : CellCheckError
  deriving DecidableEq, Repr

/-- The cells of the function space's dof map that own a given global dof. -/
def cellsOwning (V : FunctionSpace) (d : Nat) : List Nat :=
  (List.range V.cell_dofs.length).filter (fun c => d ∈ V.cell_dofs.getD c [])

/-- Append a cell to the accumulator unless already present (first-encountered
order, one occurrence per cell). -/
def insertNew (acc : List Nat) (c : Nat) : List Nat :=
  if c ∈ acc then acc else acc ++ [c]

/-- Modelled from the spec: scan the input dofs in order, accumulating the
owning cells in first-encountered order; a dof owned by no cell aborts the
whole scan with `UnknownDof`. -/
def collectOwning (V : FunctionSpace) (acc : List Nat) :
    List Nat → Except LocateError (List Nat)
  | [] => .ok acc
  | d :: ds =>
    if (cellsOwning V d).isEmpty then .error (.unknownDof d)
    else collectOwning V ((cellsOwning V d).foldl insertNew acc) ds

/-- Modelled from the spec: the ordered list of local (cell-local) dof
positions within a cell whose global dof is a member of the queried set. -/
def localPositions (V : FunctionSpace) (c : Nat) (dofs : List Nat) :
    List Nat :=
  (List.range (V.cell_dofs.getD c []).length).filter
    (fun i => (V.cell_dofs.getD c []).getD i 0 ∈ dofs)

/-- Modelled from the spec: the dof-to-cell locator — returns the
deduplicated owning cells in first-encountered order paired with the
adjacency structure mapping each owning cell, in the same order, to the
local positions of the queried dofs it owns; an unknown dof fails the whole
call with no partial result. -/
def locate_cells_with_dofs (V : FunctionSpace) (dofs : List Nat) :
    Except LocateError (List Nat × List (List Nat)) :=
  match collectOwning V [] dofs with
  | .error e => .error e
  | .ok owning => .ok (owning, owning.map (fun c => localPositions V c dofs))

/-- Whether a cell's shape tag is inconsistent with its (dof-coordinate)
vertex count. -/
def malformedCellAt (V : FunctionSpace) (c : Nat) : Bool :=
  decide ((V.cell_dof_vertices.getD c []).length ≠
    expectedVertexCount (V.cell_shape.getD c .interval))

/-- Modelled from the spec: one candidate cell of the batch collision check —
a shape/vertex-count mismatch fails with `MalformedCell`, otherwise the cell
built from dof coordinates is tested against the point. -/
def check_one_cell (V : FunctionSpace) (c : Nat) (p : Pt) :
    Except CellCheckError Bool :=
  if malformedCellAt V c then .error .malformedCell
  else .ok (collision_cell_point (V.cell_dof_vertices.getD c [])
    (V.cell_shape.getD c .interval) p)

/-- A `MalformedCell` failure is localized to its candidate: it yields
`false` for that cell without aborting the batch. -/
def recoverFalse : Except CellCheckError Bool → Bool
  | .ok b => b
  | .error _ => false

/-- Modelled from the spec: the batch collision check — every candidate cell
is evaluated (no short-circuit) and the boolean results are returned in the
input order. -/
def check_cell_point_collision (cells : List Nat) (V : FunctionSpace)
    (p : Pt) : List Bool :=
  cells.map (fun c => recoverFalse (check_one_cell V c p))

/-- The number of local basis functions (= local dofs) the function space
reports for a cell. -/
def numLocalDofs (V : FunctionSpace) (c : Nat) : Nat :=
  (V.cell_dofs.getD c []).length

/-- Dot product of two rational lists, zero-padded on the right. -/
def dotQ (a b : List ℚ) : ℚ :=
  (a.zip b).foldl (fun acc xy => acc + xy.1 * xy.2) 0

/-- Apply the pushforward matrix to one basis function's component row; the
result always has one entry per value component. -/
def applyPushforward (m : List (List ℚ)) (comps : Nat) (row : List ℚ) :
    List ℚ :=
  (List.range comps).map (fun j => dotQ (m.getD j []) row)

/-- Modelled from the spec: the basis evaluator — map the physical point to
reference coordinates through the cell's mesh-geometry vertices, tabulate
every basis function of the space at that reference point, and apply the
element's pushforward; no inside-test is re-run. -/
def get_basis_functions (V : FunctionSpace) (x : Pt) (index : Nat) :
    List (List ℚ) :=
  let shape := V.cell_shape.getD index .interval
  let verts := V.cell_mesh_vertices.getD index []
  let r := (physical_to_reference shape verts x).getD ptZero
  let comps := V.element.value_components
  (List.range (numLocalDofs V index)).map (fun i =>
    applyPushforward (V.element.pushforward r) comps
      ((List.range comps).map (fun k => V.element.ref_basis i k r)))

/-- The signed 64-bit range of the cell indices `locate_cells_with_dofs`
returns (`std::int64_t` in the header). -/
def inInt64Range (c : ℤ) : Prop := -(2 ^ 63) ≤ c ∧ c < 2 ^ 63

/-- The signed 32-bit range of the candidate-cell indices
`check_cell_point_collision` accepts (`std::int32_t`) and of the `int` cell
index `get_basis_functions` accepts. -/
def inInt32Range (c : ℤ) : Prop := -(2 ^ 31) ≤ c ∧ c < 2 ^ 31

/-- The two's-complement narrowing a 64-bit located cell index undergoes when
passed to the 32-bit collision/basis interfaces. -/
def toInt32 (c : ℤ) : ℤ := (c + 2 ^ 31) % 2 ^ 32 - 2 ^ 31

/-- First-occurrence deduplication of a scan sequence: keep each element the
first time it is encountered, in scan order. -/
def dedupFirst : List Nat → List Nat
  | [] => []
  | c :: l => c :: dedupFirst (l.filter (· ≠ c))
termination_by l => l.length
decreasing_by
simp only [List.length_cons]
exact Nat.lt_succ_of_le (List.length_filter_le _ _)

/-- Twice the signed area spanned by a triangle's vertices (the determinant
of its affine reference map). -/
def triDet2 (v0 v1 v2 : Pt) : ℚ :=
  (v1.x - v0.x) * (v2.y - v0.y) - (v2.x - v0.x) * (v1.y - v0.y)

/-- Whether three points are collinear in the x/y plane. -/
def collinear3 (a b c : Pt) : Bool :=
  decide ((b.x - a.x) * (c.y - a.y) - (b.y - a.y) * (c.x - a.x) = 0)

/-- Six times the signed volume spanned by a tetrahedron's vertices (the
determinant of its affine reference map). -/
def tetDet3 (v0 v1 v2 v3 : Pt) : ℚ :=
  (v1.x - v0.x) * ((v2.y - v0.y) * (v3.z - v0.z) - (v3.y - v0.y) * (v2.z - v0.z))
    - (v2.x - v0.x) * ((v1.y - v0.y) * (v3.z - v0.z) - (v3.y - v0.y) * (v1.z - v0.z))
    + (v3.x - v0.x) * ((v1.y - v0.y) * (v2.z - v0.z) - (v2.y - v0.y) * (v1.z - v0.z))

/-- Non-degeneracy of a cell's vertex set: the right vertex count and, for
the simplices, a non-vanishing affine determinant; for the quadrilateral,
pairwise-distinct vertices with no three collinear. -/
def nondegenerate : CellType → List Pt → Bool
  | .interval, vs =>
    decide (vs.length = 2 ∧ (vs.getD 1 ptZero).x - (vs.getD 0 ptZero).x ≠ 0)
  | .triangle, vs =>
    decide (vs.length = 3 ∧
      triDet2 (vs.getD 0 ptZero) (vs.getD 1 ptZero) (vs.getD 2 ptZero) ≠ 0)
  | .tetrahedron, vs =>
    decide (vs.length = 4 ∧
      tetDet3 (vs.getD 0 ptZero) (vs.getD 1 ptZero) (vs.getD 2 ptZero)
        (vs.getD 3 ptZero) ≠ 0)
  | .quadrilateral, vs =>
    decide (vs.length = 4 ∧ vs.Pairwise (· ≠ ·)) &&
      !collinear3 (vs.getD 0 ptZero) (vs.getD 1 ptZero) (vs.getD 2 ptZero) &&
      !collinear3 (vs.getD 0 ptZero) (vs.getD 1 ptZero) (vs.getD 3 ptZero) &&
      !collinear3 (vs.getD 0 ptZero) (vs.getD 2 ptZero) (vs.getD 3 ptZero) &&
      !collinear3 (vs.getD 1 ptZero) (vs.getD 2 ptZero) (vs.getD 3 ptZero)
  | s, vs => decide (vs.length = expectedVertexCount s)

/-- The affine shapes, whose inverse reference map is an exact linear solve. -/
def affineShape : CellType → Bool
  | .interval => true
  | .triangle => true
  | .tetrahedron => true
  | _ => false

/-- Componentwise sum of two points. -/
def addPt (p q : Pt) : Pt := ⟨p.x + q.x, p.y + q.y, p.z + q.z⟩

/-- Scale a point by a rational weight. -/
def smulPt (w : ℚ) (p : Pt) : Pt := ⟨w * p.x, w * p.y, w * p.z⟩

/-- Example scalar degree-1 space on a two-cell interval mesh ([0,1], [1,2])
with global dofs 0,1,2 and dof 1 shared by both cells. -/
def Vex : FunctionSpace where
  cell_dofs := [[0, 1], [1, 2]]
  cell_shape := [.interval, .interval]
  cell_mesh_vertices := [[⟨0, 0, 0⟩, ⟨1, 0, 0⟩], [⟨1, 0, 0⟩, ⟨2, 0, 0⟩]]
  cell_dof_vertices := [[⟨0, 0, 0⟩, ⟨1, 0, 0⟩], [⟨1, 0, 0⟩, ⟨2, 0, 0⟩]]
  element :=
    { value_components := 1
      ref_basis := fun i _ r => if i = 0 then 1 - r.x else r.x
      pushforward := fun _ => [[1]] }

/-- Example space whose cell 0 is malformed: a triangle shape tag over only
two dof-coordinate vertices. -/
def Vbad : FunctionSpace where
  cell_dofs := [[0, 1], [1, 2]]
  cell_shape := [.triangle, .interval]
  cell_mesh_vertices := [[⟨0, 0, 0⟩, ⟨1, 0, 0⟩], [⟨1, 0, 0⟩, ⟨2, 0, 0⟩]]
  cell_dof_vertices := [[⟨0, 0, 0⟩, ⟨1, 0, 0⟩], [⟨1, 0, 0⟩, ⟨2, 0, 0⟩]]
  element :=
    { value_components := 1
      ref_basis := fun i _ r => if i = 0 then 1 - r.x else r.x
      pushforward := fun _ => [[1]] }

/-- A non-convex (dart) quadrilateral with four distinct vertices, no three
collinear, whose bilinear map has a singular Jacobian at the reference-cell
midpoint. -/
def dartQuad : List Pt := [⟨0, 0, 0⟩, ⟨2, 0, 0⟩, ⟨0, 2, 0⟩, ⟨1, -1, 0⟩]

/-- An interior reference point of the unit-square reference cell. -/
def r14 : Pt := ⟨1 / 4, 1 / 4, 0⟩

/-- The physical image of `r14` under the dart quadrilateral's forward map. -/
def pDart : Pt := forward_map .quadrilateral dartQuad r14

/-- The mirror dart quadrilateral: it shares the physical edge from (0,0) to
(2,0) with `dartQuad`, is itself non-degenerate (four distinct vertices, no
three collinear), and its bilinear Jacobian is also singular at the
reference-cell midpoint. -/
def dartQuadMirror : List Pt := [⟨0, 0, 0⟩, ⟨2, 0, 0⟩, ⟨0, -2, 0⟩, ⟨1, 1, 0⟩]

/-- Pointwise description of the batch collision check: entry `i` of the
result is the recovered single-cell check of candidate `i`. -/
theorem check_cell_point_collision_getD (cells : List Nat)
    (V : FunctionSpace) (p : Pt) (i : Nat) (hi : i < cells.length) :
    (check_cell_point_collision cells V p).getD i false =
      recoverFalse (check_one_cell V (cells.getD i 0) p) := by
  have hi2 : i < (check_cell_point_collision cells V p).length := by
    simpa [check_cell_point_collision] using hi
  rw [List.getD_eq_getElem _ _ hi2, List.getD_eq_getElem _ _ hi]
  simp [check_cell_point_collision]

/-- C2: for every candidate-cell list and point, `check_cell_point_collision`
returns a boolean array of exactly the input length whose `i`-th entry is the
collision result of candidate `i`, in input order; every candidate is
evaluated through the single-cell check, with no short-circuit. -/
theorem check_cell_point_collision_pointwise (cells : List Nat)
    (V : FunctionSpace) (p : Pt) :
    (check_cell_point_collision cells V p).length = cells.length ∧
    ∀ i, i < cells.length →
      (check_cell_point_collision cells V p).getD i false =
        recoverFalse (check_one_cell V (cells.getD i 0) p) := by
  exact ⟨by simp [check_cell_point_collision],
    fun i hi => check_cell_point_collision_getD cells V p i hi⟩

/-- Witness for C2 at the two-cell example space and the point 0.5. -/
theorem check_cell_point_collision_pointwise_witness :
    (check_cell_point_collision [0, 1] Vex ⟨1 / 2, 0, 0⟩).getD 0 false =
      recoverFalse (check_one_cell Vex (([0, 1] : List Nat).getD 0 0)
        ⟨1 / 2, 0, 0⟩) :=
  (check_cell_point_collision_pointwise [0, 1] Vex ⟨1 / 2, 0, 0⟩).2 0
    (by decide)

/-- C6: a candidate whose shape tag is inconsistent with its vertex count
yields `false` (its `MalformedCell` failure is localized to that single
check), and every other candidate of the batch is still evaluated and its
result returned. -/
theorem check_malformed_cell_localized (cells : List Nat)
    (V : FunctionSpace) (p : Pt) (i : Nat) (hi : i < cells.length)
    (hm : malformedCellAt V (cells.getD i 0) = true) :
    (check_cell_point_collision cells V p).getD i false = false ∧
    check_one_cell V (cells.getD i 0) p = .error .malformedCell ∧
    ∀ j, j < cells.length → j ≠ i →
      (check_cell_point_collision cells V p).getD j false =
        recoverFalse (check_one_cell V (cells.getD j 0) p) := by
  refine ⟨?_, ?_, fun j hj _ => check_cell_point_collision_getD cells V p j hj⟩
  · rw [check_cell_point_collision_getD cells V p i hi]
    unfold check_one_cell
    rw [if_pos hm]
    rfl
  · unfold check_one_cell
    rw [if_pos hm]

/-- Witness for C6: cell 0 of `Vbad` is tagged a triangle over two vertices;
it reports `false` while cell 1 is still evaluated. -/
theorem check_malformed_cell_localized_witness :
    (check_cell_point_collision [0, 1] Vbad ⟨3 / 2, 0, 0⟩).getD 0 false =
      false ∧
    check_one_cell Vbad (([0, 1] : List Nat).getD 0 0) ⟨3 / 2, 0, 0⟩ =
      .error .malformedCell ∧
    ∀ j, j < ([0, 1] : List Nat).length → j ≠ 0 →
      (check_cell_point_collision [0, 1] Vbad ⟨3 / 2, 0, 0⟩).getD j false =
        recoverFalse (check_one_cell Vbad (([0, 1] : List Nat).getD j 0)
          ⟨3 / 2, 0, 0⟩) :=
  check_malformed_cell_localized [0, 1] Vbad ⟨3 / 2, 0, 0⟩ 0 (by decide)
    (by with_unfolding_all decide)

/-- C9: the basis table produced by `get_basis_functions` has one row per
local basis function (= per local dof the space reports for the cell) and
one column per value component of the element. -/
theorem get_basis_functions_table_shape (V : FunctionSpace) (x : Pt)
    (index : Nat) :
    (get_basis_functions V x index).length = numLocalDofs V index ∧
    ∀ row ∈ get_basis_functions V x index,
      row.length = V.element.value_components := by
  constructor
  · simp [get_basis_functions]
  · intro row hrow
    simp only [get_basis_functions, List.mem_map, List.mem_range] at hrow
    obtain ⟨i, _, rfl⟩ := hrow
    simp [applyPushforward]

/-- Witness for C9 at the example space: the first row of the basis table at
the midpoint of cell 0. -/
theorem get_basis_functions_table_shape_witness :
    ([(1 : ℚ) / 2] : List ℚ).length = Vex.element.value_components :=
  (get_basis_functions_table_shape Vex ⟨1 / 2, 0, 0⟩ 0).2 [(1 : ℚ) / 2]
    (by with_unfolding_all decide)

/-- C10: the 64-bit cell indices `locate_cells_with_dofs` returns survive the
two's-complement narrowing to the 32-bit candidate-cell/`int` index types of
`check_cell_point_collision` and `get_basis_functions` exactly when they fit
the signed 32-bit range — otherwise the narrowing truncates them. -/
theorem located_cell_narrowing (c : ℤ) (h : inInt64Range c) :
    toInt32 c = c ↔ inInt32Range c := by
  unfold toInt32 inInt32Range inInt64Range at *
  omega

/-- Witness for C10: the index 2^31 is in 64-bit range and is truncated;
the index 3 is preserved. -/
theorem located_cell_narrowing_witness :
    (toInt32 (2 ^ 31) = 2 ^ 31 ↔ inInt32Range (2 ^ 31)) ∧
    (toInt32 3 = 3 ↔ inInt32Range 3) :=
  ⟨located_cell_narrowing (2 ^ 31) (by norm_num [inInt64Range]),
   located_cell_narrowing 3 (by norm_num [inInt64Range])⟩

/-- C5: the Newton inversion is capped — exhausting the fuel yields the
`GeometryDegenerate` signal `none` rather than looping — and a degenerate
inversion makes `collision_cell_point` report non-containment (`false`)
instead of propagating a hard failure. -/
theorem collision_degenerate_noncontainment (verts : List Pt)
    (shape : CellType) (p : Pt)
    (hd : physical_to_reference shape verts p = none) :
    collision_cell_point verts shape p = false ∧
    ∀ r, newtonLoop shape verts p 0 r = none := by
  refine ⟨?_, fun r => rfl⟩
  simp [collision_cell_point, hd]

/-- Witness for C5: the dart quadrilateral's Newton inversion meets a
singular Jacobian and degenerates; the collision check reports `false`. -/
theorem collision_degenerate_noncontainment_witness :
    collision_cell_point dartQuad .quadrilateral pDart = false ∧
    ∀ r, newtonLoop .quadrilateral dartQuad pDart 0 r = none :=
  collision_degenerate_noncontainment dartQuad .quadrilateral pDart
    (by with_unfolding_all decide)

/-- A dof with no owning cell makes the scan fail with `UnknownDof`, from
any accumulator. -/
theorem collectOwning_unknown (V : FunctionSpace) (dofs : List Nat) :
    ∀ (acc : List Nat) (d : Nat), d ∈ dofs → cellsOwning V d = [] →
      ∃ d2, d2 ∈ dofs ∧ cellsOwning V d2 = [] ∧
        collectOwning V acc dofs = .error (.unknownDof d2) := by
  induction dofs with
  | nil => intro acc d hd _; exact absurd hd (List.not_mem_nil d)
  | cons a l ih =>
    intro acc d hd hempty
    by_cases ha : (cellsOwning V a).isEmpty = true
    · exact ⟨a, List.mem_cons_self a l, List.isEmpty_iff.mp ha,
        by simp [collectOwning, ha]⟩
    · have hda : d ≠ a := by
        rintro rfl
        exact ha (by simp [hempty])
      have hdl : d ∈ l := by
        rcases List.mem_cons.mp hd with h | h
        · exact absurd h hda
        · exact h
      obtain ⟨d2, h1, h2, h3⟩ :=
        ih ((cellsOwning V a).foldl insertNew acc) d hdl hempty
      exact ⟨d2, List.mem_cons_of_mem a h1, h2, by simp [collectOwning, ha, h3]⟩

/-- C1: if any queried dof is absent from the function space's dof map (no
cell owns it), `locate_cells_with_dofs` fails the whole call with an
`UnknownDof` error carrying such a dof, and returns no result at all —
neither a partial owning-cell array nor a partial adjacency. -/
theorem locate_unknown_dof_fails (V : FunctionSpace) (dofs : List Nat)
    (d : Nat) (hd : d ∈ dofs) (hempty : cellsOwning V d = []) :
    ∃ d2, d2 ∈ dofs ∧ cellsOwning V d2 = [] ∧
      locate_cells_with_dofs V dofs = .error (.unknownDof d2) ∧
      ∀ res, locate_cells_with_dofs V dofs ≠ .ok res := by
  obtain ⟨d2, h1, h2, h3⟩ := collectOwning_unknown V dofs [] d hd hempty
  exact ⟨d2, h1, h2, by simp [locate_cells_with_dofs, h3],
    fun res => by simp [locate_cells_with_dofs, h3]⟩

/-- Witness for C1: querying the example space for the unknown dof 5. -/
theorem locate_unknown_dof_fails_witness :
    ∃ d2, d2 ∈ [5] ∧ cellsOwning Vex d2 = [] ∧
      locate_cells_with_dofs Vex [5] = .error (.unknownDof d2) ∧
      ∀ res, locate_cells_with_dofs Vex [5] ≠ .ok res :=
  locate_unknown_dof_fails Vex [5] 5 (by decide) (by decide)

/-- C3: on success the adjacency has exactly one entry per owning cell, in
the same order, and entry `i` is the ordered list of the cell-local dof
positions of `owning_cells[i]` whose global dof belongs to the queried set:
membership is characterized by position-in-cell plus global-dof membership,
and each entry is strictly increasing in local position. -/
theorem locate_adjacency_aligned (V : FunctionSpace) (dofs : List Nat)
    (oc : List Nat) (adj : List (List Nat))
    (hok : locate_cells_with_dofs V dofs = .ok (oc, adj)) :
    adj.length = oc.length ∧
    (∀ i, i < oc.length →
      adj.getD i [] = localPositions V (oc.getD i 0) dofs) ∧
    (∀ c j, j ∈ localPositions V c dofs ↔
      j < (V.cell_dofs.getD c []).length ∧
        (V.cell_dofs.getD c []).getD j 0 ∈ dofs) ∧
    ∀ c, (localPositions V c dofs).Pairwise (· < ·) := by
  unfold locate_cells_with_dofs at hok
  rcases hco : collectOwning V [] dofs with e | owning
  · rw [hco] at hok; cases hok
  · rw [hco] at hok
    rw [Except.ok.injEq, Prod.mk.injEq] at hok
    obtain ⟨rfl, rfl⟩ := hok
    refine ⟨by simp, ?_, ?_, ?_⟩
    · intro i hi
      have hi2 : i < (owning.map (fun c => localPositions V c dofs)).length := by
        simpa using hi
      rw [List.getD_eq_getElem _ _ hi2, List.getD_eq_getElem _ _ hi]
      simp
    · intro c j
      simp [localPositions, List.mem_filter, List.mem_range]
    · intro c
      exact List.Pairwise.filter _ (List.pairwise_lt_range _)

/-- Witness for C3 at the example space with queried dofs [1, 0]. -/
theorem locate_adjacency_aligned_witness :
    ([[0, 1], [0]] : List (List Nat)).length = ([0, 1] : List Nat).length ∧
    (∀ i, i < ([0, 1] : List Nat).length →
      ([[0, 1], [0]] : List (List Nat)).getD i [] =
        localPositions Vex (([0, 1] : List Nat).getD i 0) [1, 0]) ∧
    (∀ c j, j ∈ localPositions Vex c [1, 0] ↔
      j < (Vex.cell_dofs.getD c []).length ∧
        (Vex.cell_dofs.getD c []).getD j 0 ∈ [1, 0]) ∧
    ∀ c, (localPositions Vex c [1, 0]).Pairwise (· < ·) :=
  locate_adjacency_aligned Vex [1, 0] [0, 1] [[0, 1], [0]] (by rfl)

/-- Inserting an already-seen cell changes nothing. -/
theorem insertNew_of_mem {acc : List Nat} {a : Nat} (h : a ∈ acc) :
    insertNew acc a = acc := if_pos h

/-- Inserting an unseen cell appends it. -/
theorem insertNew_of_not_mem {acc : List Nat} {a : Nat} (h : a ∉ acc) :
    insertNew acc a = acc ++ [a] := if_neg h

/-- Membership in the first-encountered fold: exactly the accumulator's
members plus the scanned list's members. -/
theorem mem_foldl_insertNew (l : List Nat) :
    ∀ (acc : List Nat) (c : Nat),
      c ∈ l.foldl insertNew acc ↔ c ∈ acc ∨ c ∈ l := by
  induction l with
  | nil => simp
  | cons a t ih =>
    intro acc c
    rw [List.foldl_cons, ih]
    unfold insertNew
    by_cases h : a ∈ acc
    · rw [if_pos h]
      simp only [List.mem_cons]
      constructor
      · rintro (hc | hc)
        · exact Or.inl hc
        · exact Or.inr (Or.inr hc)
      · rintro (hc | rfl | hc)
        · exact Or.inl hc
        · exact Or.inl h
        · exact Or.inr hc
    · rw [if_neg h]
      simp only [List.mem_append, List.mem_singleton, List.mem_cons]
      tauto

/-- The first-encountered fold preserves freedom from duplicates. -/
theorem nodup_foldl_insertNew (l : List Nat) :
    ∀ acc : List Nat, acc.Nodup → (l.foldl insertNew acc).Nodup := by
  induction l with
  | nil => intro acc h; simpa using h
  | cons a t ih =>
    intro acc hacc
    rw [List.foldl_cons]
    apply ih
    unfold insertNew
    by_cases h : a ∈ acc
    · rwa [if_pos h]
    · rw [if_neg h]
      simp [List.nodup_append, hacc, h]

/-- A successful scan's owning cells are exactly the accumulator plus every
cell owning some scanned dof. -/
theorem collectOwning_ok_mem (V : FunctionSpace) (dofs : List Nat) :
    ∀ (acc owning : List Nat), collectOwning V acc dofs = .ok owning →
      ∀ c, c ∈ owning ↔ c ∈ acc ∨ ∃ d ∈ dofs, c ∈ cellsOwning V d := by
  induction dofs with
  | nil =>
    intro acc owning h c
    rw [collectOwning, Except.ok.injEq] at h
    subst h
    simp
  | cons a t ih =>
    intro acc owning h c
    rw [collectOwning] at h
    by_cases ha : (cellsOwning V a).isEmpty = true
    · rw [if_pos ha] at h; cases h
    · rw [if_neg ha] at h
      rw [ih _ _ h c, mem_foldl_insertNew]
      simp only [List.mem_cons]
      constructor
      · rintro ((hc | hc) | ⟨d, hd, hcd⟩)
        · exact Or.inl hc
        · exact Or.inr ⟨a, Or.inl rfl, hc⟩
        · exact Or.inr ⟨d, Or.inr hd, hcd⟩
      · rintro (hc | ⟨d, rfl | hd, hcd⟩)
        · exact Or.inl (Or.inl hc)
        · exact Or.inl (Or.inr hcd)
        · exact Or.inr ⟨d, hd, hcd⟩

/-- A successful scan's owning cells are free of duplicates. -/
theorem collectOwning_ok_nodup (V : FunctionSpace) (dofs : List Nat) :
    ∀ (acc owning : List Nat), acc.Nodup →
      collectOwning V acc dofs = .ok owning → owning.Nodup := by
  induction dofs with
  | nil =>
    intro acc owning hacc h
    rw [collectOwning, Except.ok.injEq] at h
    subst h
    exact hacc
  | cons a t ih =>
    intro acc owning hacc h
    rw [collectOwning] at h
    by_cases ha : (cellsOwning V a).isEmpty = true
    · rw [if_pos ha] at h; cases h
    · rw [if_neg ha] at h
      exact ih _ _ (nodup_foldl_insertNew _ _ hacc) h

/-- The first-encountered fold, started from a duplicate-free accumulator,
appends exactly the first-occurrence deduplication of the not-yet-seen part
of the scan. -/
theorem foldl_insertNew_eq_dedupFirst (l : List Nat) :
    ∀ acc : List Nat,
      l.foldl insertNew acc = acc ++ dedupFirst (l.filter (· ∉ acc)) := by
  induction l with
  | nil => intro acc; simp [dedupFirst]
  | cons a t ih =>
    intro acc
    rw [List.foldl_cons]
    by_cases h : a ∈ acc
    · rw [insertNew_of_mem h, ih]
      have : (a :: t).filter (· ∉ acc) = t.filter (· ∉ acc) := by
        simp [List.filter_cons, h]
      rw [this]
    · rw [insertNew_of_not_mem h, ih]
      have h1 : (a :: t).filter (· ∉ acc) = a :: t.filter (· ∉ acc) := by
        simp [List.filter_cons, h]
      rw [h1]
      rw [dedupFirst]
      have h2 : (t.filter (· ∉ acc)).filter (· ≠ a) =
          t.filter (· ∉ acc ++ [a]) := by
        rw [List.filter_filter]
        apply List.filter_congr
        intro x _
        simp only [List.mem_append, List.mem_singleton]
        rcases Decidable.em (x = a) with hx | hx <;>
          rcases Decidable.em (x ∈ acc) with hx2 | hx2 <;>
            simp [hx, hx2]
      rw [h2]
      simp

/-- A successful scan from the empty accumulator is the first-occurrence
deduplication of the concatenated owner lists, in dof input order. -/
theorem collectOwning_ok_eq (V : FunctionSpace) (dofs : List Nat) :
    ∀ (acc owning : List Nat), collectOwning V acc dofs = .ok owning →
      owning = (dofs.flatMap (cellsOwning V)).foldl insertNew acc := by
  induction dofs with
  | nil =>
    intro acc owning h
    rw [collectOwning, Except.ok.injEq] at h
    subst h
    simp
  | cons a t ih =>
    intro acc owning h
    rw [collectOwning] at h
    by_cases ha : (cellsOwning V a).isEmpty = true
    · rw [if_pos ha] at h; cases h
    · rw [if_neg ha] at h
      rw [ih _ _ h, List.flatMap_cons, List.foldl_append]

/-- A scan succeeds exactly when every scanned dof has at least one owning
cell. -/
theorem collectOwning_ok_of_owned (V : FunctionSpace) (dofs : List Nat) :
    ∀ acc : List Nat, (∀ d ∈ dofs, cellsOwning V d ≠ []) →
      ∃ owning, collectOwning V acc dofs = .ok owning := by
  induction dofs with
  | nil => intro acc _; exact ⟨acc, rfl⟩
  | cons a t ih =>
    intro acc hall
    have ha : ¬(cellsOwning V a).isEmpty = true := by
      simpa [List.isEmpty_iff] using hall a (List.mem_cons_self a t)
    obtain ⟨owning, how⟩ :=
      ih ((cellsOwning V a).foldl insertNew acc)
        (fun d hd => hall d (List.mem_cons_of_mem a hd))
    exact ⟨owning, by rw [collectOwning, if_neg ha]; exact how⟩

/-- A successful scan means every scanned dof had at least one owning
cell. -/
theorem collectOwning_ok_owned (V : FunctionSpace) (dofs : List Nat) :
    ∀ acc owning : List Nat, collectOwning V acc dofs = .ok owning →
      ∀ d ∈ dofs, cellsOwning V d ≠ [] := by
  induction dofs with
  | nil => intro _ _ _ d hd; exact absurd hd (List.not_mem_nil d)
  | cons a t ih =>
    intro acc owning h d hd
    rw [collectOwning] at h
    by_cases ha : (cellsOwning V a).isEmpty = true
    · rw [if_pos ha] at h; cases h
    · rw [if_neg ha] at h
      rcases List.mem_cons.mp hd with rfl | hdt
      · simpa [List.isEmpty_iff] using ha
      · exact ih _ _ h d hdt

/-- C4: on success each owning cell appears exactly once (no duplicates even
when a cell owns several queried dofs), `owning_cells` is exactly the
first-occurrence deduplication of the owner scan in dof input order, and
any permutation of the input dofs also succeeds with the same set of owning
cells. -/
theorem locate_owning_dedup_order_perm (V : FunctionSpace)
    (dofs : List Nat) (oc : List Nat) (adj : List (List Nat))
    (hok : locate_cells_with_dofs V dofs = .ok (oc, adj)) :
    oc.Nodup ∧
    oc = dedupFirst (dofs.flatMap (cellsOwning V)) ∧
    ∀ dofs2 : List Nat, dofs2.Perm dofs →
      ∃ oc2 adj2, locate_cells_with_dofs V dofs2 = .ok (oc2, adj2) ∧
        ∀ c, (c ∈ oc2 ↔ c ∈ oc) := by
  unfold locate_cells_with_dofs at hok
  rcases hco : collectOwning V [] dofs with e | owning
  · rw [hco] at hok; cases hok
  · rw [hco] at hok
    rw [Except.ok.injEq, Prod.mk.injEq] at hok
    obtain ⟨rfl, rfl⟩ := hok
    refine ⟨collectOwning_ok_nodup V dofs [] owning List.nodup_nil hco, ?_, ?_⟩
    · rw [collectOwning_ok_eq V dofs [] owning hco,
        foldl_insertNew_eq_dedupFirst]
      simp
    · intro dofs2 hperm
      obtain ⟨owning2, hco2⟩ := collectOwning_ok_of_owned V dofs2 []
        (fun d hd => collectOwning_ok_owned V dofs [] owning hco d
          (hperm.mem_iff.mp hd))
      refine ⟨owning2, owning2.map (fun c => localPositions V c dofs2),
        by simp [locate_cells_with_dofs, hco2], ?_⟩
      intro c
      rw [collectOwning_ok_mem V dofs2 [] owning2 hco2 c,
        collectOwning_ok_mem V dofs [] owning hco c]
      simp only [List.not_mem_nil, false_or]
      constructor
      · rintro ⟨d, hd, hcd⟩
        exact ⟨d, hperm.mem_iff.mp hd, hcd⟩
      · rintro ⟨d, hd, hcd⟩
        exact ⟨d, hperm.mem_iff.mpr hd, hcd⟩

/-- Witness for C4 at the example space with queried dofs [1, 0]. -/
theorem locate_owning_dedup_order_perm_witness :
    ([0, 1] : List Nat).Nodup ∧
    ([0, 1] : List Nat) = dedupFirst (([1, 0] : List Nat).flatMap
      (cellsOwning Vex)) ∧
    ∀ dofs2 : List Nat, dofs2.Perm [1, 0] →
      ∃ oc2 adj2, locate_cells_with_dofs Vex dofs2 = .ok (oc2, adj2) ∧
        ∀ c, (c ∈ oc2 ↔ c ∈ ([0, 1] : List Nat)) :=
  locate_owning_dedup_order_perm Vex [1, 0] [0, 1] [[0, 1], [0]] (by rfl)

/-- Exact left inverse of the forward map on a non-degenerate interval:
Cramer's affine solve recovers the reference abscissa. -/
theorem interval_left_inverse (a b : Pt) (r : Pt) (hd : b.x - a.x ≠ 0) :
    physical_to_reference .interval [a, b]
      (forward_map .interval [a, b] r) = some ⟨r.x, 0, 0⟩ := by
  simp only [physical_to_reference, forward_map, weightedSum, shapeWeights,
    List.zip_cons_cons, List.zip_nil_right, List.foldl_cons, List.foldl_nil,
    List.getD_cons_zero, List.getD_cons_succ, ptZero]
  rw [if_neg hd]
  simp only [Option.some.injEq, Pt.mk.injEq]
  refine ⟨?_, trivial, trivial⟩
  field_simp
  ring

/-- Exact left inverse of the forward map on a non-degenerate triangle:
Cramer's affine solve recovers the reference coordinates. -/
theorem triangle_left_inverse (a b c : Pt) (r : Pt)
    (hdet : triDet2 a b c ≠ 0) :
    physical_to_reference .triangle [a, b, c]
      (forward_map .triangle [a, b, c] r) = some ⟨r.x, r.y, 0⟩ := by
  have hdet2 : (b.x - a.x) * (c.y - a.y) - (c.x - a.x) * (b.y - a.y) ≠ 0 := by
    simpa [triDet2] using hdet
  simp only [physical_to_reference, forward_map, weightedSum, shapeWeights,
    List.zip_cons_cons, List.zip_nil_right, List.foldl_cons, List.foldl_nil,
    List.getD_cons_zero, List.getD_cons_succ, ptZero]
  rw [if_neg hdet2]
  simp only [Option.some.injEq, Pt.mk.injEq]
  refine ⟨?_, ?_, trivial⟩
  · field_simp
    ring
  · field_simp
    ring

/-- Exact left inverse of the forward map on a non-degenerate tetrahedron:
Cramer's affine solve recovers the reference coordinates. -/
theorem tetrahedron_left_inverse (a b c d : Pt) (r : Pt)
    (hdet : tetDet3 a b c d ≠ 0) :
    physical_to_reference .tetrahedron [a, b, c, d]
      (forward_map .tetrahedron [a, b, c, d] r) = some ⟨r.x, r.y, r.z⟩ := by
  have hdet2 : (b.x - a.x) *
        ((c.y - a.y) * (d.z - a.z) - (d.y - a.y) * (c.z - a.z))
      - (c.x - a.x) *
        ((b.y - a.y) * (d.z - a.z) - (d.y - a.y) * (b.z - a.z))
      + (d.x - a.x) *
        ((b.y - a.y) * (c.z - a.z) - (c.y - a.y) * (b.z - a.z)) ≠ 0 := by
    simpa [tetDet3] using hdet
  simp only [physical_to_reference, forward_map, weightedSum, shapeWeights,
    List.zip_cons_cons, List.zip_nil_right, List.foldl_cons, List.foldl_nil,
    List.getD_cons_zero, List.getD_cons_succ, ptZero]
  rw [if_neg hdet2]
  simp only [Option.some.injEq, Pt.mk.injEq]
  refine ⟨?_, ?_, ?_⟩ <;> (field_simp; ring)

/-- C8 counterexample: the claim quantifies over every cell shape, but for
the quadrilateral the inverse map is the capped Newton iteration, and on the
dart quadrilateral — a non-degenerate vertex set (four distinct vertices, no
three collinear) — with the interior reference point (1/4, 1/4) the first
Newton Jacobian is singular, so the inversion degenerates to `none` instead
of recovering the reference point. -/
theorem newton_left_inverse_fails_on_quad :
    nondegenerate .quadrilateral dartQuad = true ∧
    inside_reference_cell .quadrilateral r14 0 = true ∧
    physical_to_reference .quadrilateral dartQuad
      (forward_map .quadrilateral dartQuad r14) = none ∧
    physical_to_reference .quadrilateral dartQuad
      (forward_map .quadrilateral dartQuad r14) ≠ some r14 := by
  refine ⟨?_, ?_, ?_, ?_⟩ <;> with_unfolding_all decide

/-- C8 (amended): for the affine shapes — interval, triangle, tetrahedron —
`physical_to_reference` is an exact left inverse of the forward
reference-to-physical map on every non-degenerate vertex set and every
reference point inside the reference cell. -/
theorem physical_to_reference_left_inverse_affine (shape : CellType)
    (verts : List Pt) (r : Pt) (hsh : affineShape shape = true)
    (hnd : nondegenerate shape verts = true)
    (hin : inside_reference_cell shape r 0 = true) :
    physical_to_reference shape verts (forward_map shape verts r) =
      some r := by
  cases shape with
  | quadrilateral => simp [affineShape] at hsh
  | hexahedron => simp [affineShape] at hsh
  | prism => simp [affineShape] at hsh
  | pyramid => simp [affineShape] at hsh
  | interval =>
    simp only [nondegenerate, decide_eq_true_eq] at hnd
    obtain ⟨hlen, hd⟩ := hnd
    rcases verts with _ | ⟨a, _ | ⟨b, _ | ⟨v, t⟩⟩⟩ <;> simp at hlen
    simp only [List.getD_cons_zero, List.getD_cons_succ] at hd
    simp only [inside_reference_cell, decide_eq_true_eq] at hin
    obtain ⟨-, -, hy, hz⟩ := hin
    rw [interval_left_inverse a b r hd]
    congr 1
    cases r
    simp_all
  | triangle =>
    simp only [nondegenerate, decide_eq_true_eq] at hnd
    obtain ⟨hlen, hdet⟩ := hnd
    rcases verts with _ | ⟨a, _ | ⟨b, _ | ⟨c, _ | ⟨v, t⟩⟩⟩⟩ <;> simp at hlen
    simp only [List.getD_cons_zero, List.getD_cons_succ] at hdet
    simp only [inside_reference_cell, decide_eq_true_eq] at hin
    obtain ⟨-, -, -, hz⟩ := hin
    rw [triangle_left_inverse a b c r hdet]
    congr 1
    cases r
    simp_all
  | tetrahedron =>
    simp only [nondegenerate, decide_eq_true_eq] at hnd
    obtain ⟨hlen, hdet⟩ := hnd
    rcases verts with _ | ⟨a, _ | ⟨b, _ | ⟨c, _ | ⟨d, _ | ⟨v, t⟩⟩⟩⟩⟩ <;>
      simp at hlen
    simp only [List.getD_cons_zero, List.getD_cons_succ] at hdet
    exact tetrahedron_left_inverse a b c d r hdet

/-- Witness for the amended C8 on the unit reference triangle at the
interior point (1/4, 1/4). -/
theorem physical_to_reference_left_inverse_affine_witness :
    physical_to_reference .triangle [⟨0, 0, 0⟩, ⟨1, 0, 0⟩, ⟨0, 1, 0⟩]
      (forward_map .triangle [⟨0, 0, 0⟩, ⟨1, 0, 0⟩, ⟨0, 1, 0⟩]
        ⟨1 / 4, 1 / 4, 0⟩) = some ⟨1 / 4, 1 / 4, 0⟩ :=
  physical_to_reference_left_inverse_affine .triangle
    [⟨0, 0, 0⟩, ⟨1, 0, 0⟩, ⟨0, 1, 0⟩] ⟨1 / 4, 1 / 4, 0⟩ (by decide)
    (by with_unfolding_all decide) (by with_unfolding_all decide)

/-- A point of the closed triangle (given by barycentric weights with
non-negative off-vertex coordinates summing to at most one) always collides
with the triangle: the exact pull-back lands inside the tolerant
inside-test. -/
theorem collision_true_of_closed_triangle (a b c : Pt) (l1 l2 : ℚ)
    (hdet : triDet2 a b c ≠ 0) (h1 : 0 ≤ l1) (h2 : 0 ≤ l2)
    (h12 : l1 + l2 ≤ 1) :
    collision_cell_point [a, b, c] .triangle
      (forward_map .triangle [a, b, c] ⟨l1, l2, 0⟩) = true := by
  unfold collision_cell_point
  rw [triangle_left_inverse a b c ⟨l1, l2, 0⟩ hdet]
  show inside_reference_cell .triangle ⟨l1, l2, 0⟩ collisionTol = true
  simp only [inside_reference_cell, decide_eq_true_eq]
  have htol : (0 : ℚ) < collisionTol := by norm_num [collisionTol]
  exact ⟨by linarith, by linarith, by linarith, trivial⟩

/-- Folding the weighted-sum step from any accumulator splits into the
accumulator plus the weighted sum from zero. -/
theorem weightedSum_shift (ws : List ℚ) :
    ∀ (vs : List Pt) (acc : Pt),
      (ws.zip vs).foldl
        (fun a wv =>
          ⟨a.x + wv.1 * wv.2.x, a.y + wv.1 * wv.2.y, a.z + wv.1 * wv.2.z⟩)
        acc = addPt acc (weightedSum ws vs) := by
  induction ws with
  | nil => intro vs acc; simp [weightedSum, addPt, ptZero]
  | cons w ws ih =>
    intro vs acc
    cases vs with
    | nil => simp [weightedSum, addPt, ptZero]
    | cons v vs =>
      rw [List.zip_cons_cons, List.foldl_cons, ih]
      have h2 : weightedSum (w :: ws) (v :: vs) =
          addPt ⟨ptZero.x + w * v.x, ptZero.y + w * v.y, ptZero.z + w * v.z⟩
            (weightedSum ws vs) := ih vs _
      rw [h2]
      simp only [addPt, ptZero, Pt.mk.injEq]
      refine ⟨by ring, by ring, by ring⟩

/-- Head unfolding of the weighted sum. -/
theorem weightedSum_cons (w : ℚ) (v : Pt) (ws : List ℚ) (vs : List Pt) :
    weightedSum (w :: ws) (v :: vs) =
      addPt (smulPt w v) (weightedSum ws vs) := by
  have h : weightedSum (w :: ws) (v :: vs) =
      addPt ⟨ptZero.x + w * v.x, ptZero.y + w * v.y, ptZero.z + w * v.z⟩
        (weightedSum ws vs) := weightedSum_shift ws vs _
  rw [h]
  simp only [addPt, smulPt, ptZero, Pt.mk.injEq]
  refine ⟨by ring, by ring, by ring⟩

/-- The all-zero weight vector sums to the origin. -/
theorem weightedSum_replicate_zero (vs : List Pt) :
    weightedSum (List.replicate vs.length 0) vs = ptZero := by
  induction vs with
  | nil => rfl
  | cons v vs ih =>
    rw [List.length_cons, List.replicate_succ, weightedSum_cons, ih]
    simp [addPt, smulPt, ptZero]

/-- Adding weight `l` at position `i` adds `l` times the `i`-th vertex to
the weighted sum. -/
theorem weightedSum_set (vs : List Pt) :
    ∀ (ws : List ℚ) (i : Nat) (l : ℚ), i < vs.length →
      ws.length = vs.length →
      weightedSum (ws.set i (ws.getD i 0 + l)) vs =
        addPt (weightedSum ws vs) (smulPt l (vs.getD i ptZero)) := by
  induction vs with
  | nil => intro ws i l hi _; cases hi
  | cons v vs ih =>
    intro ws i l hi hlen
    cases ws with
    | nil => simp at hlen
    | cons w ws =>
      cases i with
      | zero =>
        simp only [List.set_cons_zero, List.getD_cons_zero]
        rw [weightedSum_cons, weightedSum_cons]
        simp only [addPt, smulPt, Pt.mk.injEq]
        refine ⟨by ring, by ring, by ring⟩
      | succ i =>
        simp only [List.set_cons_succ, List.getD_cons_succ]
        rw [weightedSum_cons, weightedSum_cons,
          ih ws i l (Nat.lt_of_succ_lt_succ hi) (by simpa using hlen)]
        simp only [addPt, smulPt, Pt.mk.injEq]
        refine ⟨by ring, by ring, by ring⟩

/-- Adding weight `l` at position `i` adds `l` to the total weight. -/
theorem sum_set_add (ws : List ℚ) :
    ∀ (i : Nat) (l : ℚ), i < ws.length →
      (ws.set i (ws.getD i 0 + l)).sum = ws.sum + l := by
  induction ws with
  | nil => intro i l hi; cases hi
  | cons w ws ih =>
    intro i l hi
    cases i with
    | zero =>
      simp only [List.set_cons_zero, List.getD_cons_zero, List.sum_cons]
      ring
    | succ i =>
      simp only [List.set_cons_succ, List.getD_cons_succ, List.sum_cons]
      rw [ih i l (Nat.lt_of_succ_lt_succ hi)]
      ring

/-- Adding a non-negative weight preserves non-negativity of the weight
vector. -/
theorem nonneg_set_add {ws : List ℚ} {i : Nat} {l : ℚ}
    (hws : ∀ w ∈ ws, 0 ≤ w) (hl : 0 ≤ l) :
    ∀ w ∈ ws.set i (ws.getD i 0 + l), 0 ≤ w := by
  intro w hw
  rcases List.mem_or_eq_of_mem_set hw with h | rfl
  · exact hws w h
  · have h0 : 0 ≤ ws.getD i 0 := by
      rcases Nat.lt_or_ge i ws.length with hi | hi
      · rw [List.getD_eq_getElem _ _ hi]
        exact hws _ (List.getElem_mem hi)
      · rw [List.getD_eq_default _ _ hi]
    linarith

/-- Absorption: a convex combination of points that are all vertices of a
cell is a convex combination of the cell's full vertex list, with the same
total weight. -/
theorem exists_full_weights (verts : List Pt) (face : List Pt) :
    ∀ ls : List ℚ, ls.length = face.length → (∀ q ∈ face, q ∈ verts) →
      (∀ l ∈ ls, 0 ≤ l) →
      ∃ ws : List ℚ, ws.length = verts.length ∧ (∀ w ∈ ws, 0 ≤ w) ∧
        ws.sum = ls.sum ∧ weightedSum ws verts = weightedSum ls face := by
  induction face with
  | nil =>
    intro ls hlen _ _
    cases ls with
    | nil =>
      refine ⟨List.replicate verts.length 0, List.length_replicate _ _,
        ?_, by simp, ?_⟩
      · intro w hw
        rw [List.eq_of_mem_replicate hw]
      · rw [weightedSum_replicate_zero]
        rfl
    | cons l ls => simp at hlen
  | cons q face ih =>
    intro ls hlen hmem hpos
    cases ls with
    | nil => simp at hlen
    | cons l ls =>
      obtain ⟨ws, h1, h2, h3, h4⟩ := ih ls (by simpa using hlen)
        (fun x hx => hmem x (List.mem_cons_of_mem q hx))
        (fun x hx => hpos x (List.mem_cons_of_mem l hx))
      have hq : q ∈ verts := hmem q (List.mem_cons_self q face)
      obtain ⟨i, hi, hqi⟩ := List.getElem_of_mem hq
      refine ⟨ws.set i (ws.getD i 0 + l), ?_, ?_, ?_, ?_⟩
      · rw [List.length_set, h1]
      · exact nonneg_set_add h2 (hpos l (List.mem_cons_self l ls))
      · rw [sum_set_add ws i l (by rw [h1]; exact hi), h3, List.sum_cons]
        ring
      · rw [weightedSum_set verts ws i l hi h1, h4, weightedSum_cons]
        have hgd : verts.getD i ptZero = q := by
          rw [List.getD_eq_getElem _ _ hi, hqi]
        rw [hgd]
        simp only [addPt, smulPt, Pt.mk.injEq]
        refine ⟨by ring, by ring, by ring⟩

/-- A point of the closed interval (parameter between 0 and 1) always
collides with the interval: the exact pull-back lands inside the tolerant
inside-test. -/
theorem collision_true_of_closed_interval (a b : Pt) (l1 : ℚ)
    (hd : b.x - a.x ≠ 0) (h1 : 0 ≤ l1) (h2 : l1 ≤ 1) :
    collision_cell_point [a, b] .interval
      (forward_map .interval [a, b] ⟨l1, 0, 0⟩) = true := by
  unfold collision_cell_point
  rw [interval_left_inverse a b ⟨l1, 0, 0⟩ hd]
  show inside_reference_cell .interval ⟨l1, 0, 0⟩ collisionTol = true
  simp only [inside_reference_cell, decide_eq_true_eq]
  have htol : (0 : ℚ) < collisionTol := by norm_num [collisionTol]
  exact ⟨by linarith, by linarith, trivial, trivial⟩

/-- A point of the closed tetrahedron (non-negative barycentric off-vertex
coordinates summing to at most one) always collides with the tetrahedron. -/
theorem collision_true_of_closed_tetrahedron (a b c d : Pt) (l1 l2 l3 : ℚ)
    (hdet : tetDet3 a b c d ≠ 0) (h1 : 0 ≤ l1) (h2 : 0 ≤ l2) (h3 : 0 ≤ l3)
    (h123 : l1 + l2 + l3 ≤ 1) :
    collision_cell_point [a, b, c, d] .tetrahedron
      (forward_map .tetrahedron [a, b, c, d] ⟨l1, l2, l3⟩) = true := by
  unfold collision_cell_point
  rw [tetrahedron_left_inverse a b c d ⟨l1, l2, l3⟩ hdet]
  show inside_reference_cell .tetrahedron ⟨l1, l2, l3⟩ collisionTol = true
  simp only [inside_reference_cell, decide_eq_true_eq]
  have htol : (0 : ℚ) < collisionTol := by norm_num [collisionTol]
  exact ⟨by linarith, by linarith, by linarith, by linarith⟩

/-- Any convex combination of a non-degenerate affine (simplex) cell's
vertices collides with the cell: the combination is the forward image of a
closed reference point, the exact affine pull-back recovers it, and the
tolerant inside-test accepts it. -/
theorem collision_true_of_convex_combo (shape : CellType) (verts : List Pt)
    (ws : List ℚ) (hsh : affineShape shape = true)
    (hnd : nondegenerate shape verts = true)
    (hlen : ws.length = verts.length) (hpos : ∀ w ∈ ws, 0 ≤ w)
    (hsum : ws.sum = 1) :
    collision_cell_point verts shape (weightedSum ws verts) = true := by
  cases shape with
  | quadrilateral => simp [affineShape] at hsh
  | hexahedron => simp [affineShape] at hsh
  | prism => simp [affineShape] at hsh
  | pyramid => simp [affineShape] at hsh
  | interval =>
    simp only [nondegenerate, decide_eq_true_eq] at hnd
    obtain ⟨hvlen, hd⟩ := hnd
    rcases verts with _ | ⟨a, _ | ⟨b, _ | ⟨v, t⟩⟩⟩ <;> simp at hvlen
    rcases ws with _ | ⟨w0, _ | ⟨w1, _ | ⟨x, t2⟩⟩⟩ <;> simp at hlen
    simp only [List.getD_cons_zero, List.getD_cons_succ] at hd
    have hw0 : 0 ≤ w0 := hpos w0 (by simp)
    have hw1 : 0 ≤ w1 := hpos w1 (by simp)
    have hsum2 : w0 + w1 = 1 := by simpa using hsum
    have hp : weightedSum [w0, w1] [a, b] =
        forward_map .interval [a, b] ⟨w1, 0, 0⟩ := by
      simp only [forward_map, weightedSum, shapeWeights, List.zip_cons_cons,
        List.zip_nil_right, List.foldl_cons, List.foldl_nil, ptZero,
        Pt.mk.injEq]
      refine ⟨by linear_combination a.x * hsum2,
        by linear_combination a.y * hsum2,
        by linear_combination a.z * hsum2⟩
    rw [hp]
    exact collision_true_of_closed_interval a b w1 hd hw1 (by linarith)
  | triangle =>
    simp only [nondegenerate, decide_eq_true_eq] at hnd
    obtain ⟨hvlen, hdet⟩ := hnd
    rcases verts with _ | ⟨a, _ | ⟨b, _ | ⟨c, _ | ⟨v, t⟩⟩⟩⟩ <;> simp at hvlen
    rcases ws with _ | ⟨w0, _ | ⟨w1, _ | ⟨w2, _ | ⟨x, t2⟩⟩⟩⟩ <;> simp at hlen
    simp only [List.getD_cons_zero, List.getD_cons_succ] at hdet
    have hw0 : 0 ≤ w0 := hpos w0 (by simp)
    have hw1 : 0 ≤ w1 := hpos w1 (by simp)
    have hw2 : 0 ≤ w2 := hpos w2 (by simp)
    have hsum2 : w0 + w1 + w2 = 1 := by
      have := hsum
      simp only [List.sum_cons, List.sum_nil] at this
      linarith
    have hp : weightedSum [w0, w1, w2] [a, b, c] =
        forward_map .triangle [a, b, c] ⟨w1, w2, 0⟩ := by
      simp only [forward_map, weightedSum, shapeWeights, List.zip_cons_cons,
        List.zip_nil_right, List.foldl_cons, List.foldl_nil, ptZero,
        Pt.mk.injEq]
      refine ⟨by linear_combination a.x * hsum2,
        by linear_combination a.y * hsum2,
        by linear_combination a.z * hsum2⟩
    rw [hp]
    exact collision_true_of_closed_triangle a b c w1 w2 hdet hw1 hw2
      (by linarith)
  | tetrahedron =>
    simp only [nondegenerate, decide_eq_true_eq] at hnd
    obtain ⟨hvlen, hdet⟩ := hnd
    rcases verts with _ | ⟨a, _ | ⟨b, _ | ⟨c, _ | ⟨d, _ | ⟨v, t⟩⟩⟩⟩⟩ <;>
      simp at hvlen
    rcases ws with _ | ⟨w0, _ | ⟨w1, _ | ⟨w2, _ | ⟨w3, _ | ⟨x, t2⟩⟩⟩⟩⟩ <;>
      simp at hlen
    simp only [List.getD_cons_zero, List.getD_cons_succ] at hdet
    have hw0 : 0 ≤ w0 := hpos w0 (by simp)
    have hw1 : 0 ≤ w1 := hpos w1 (by simp)
    have hw2 : 0 ≤ w2 := hpos w2 (by simp)
    have hw3 : 0 ≤ w3 := hpos w3 (by simp)
    have hsum2 : w0 + w1 + w2 + w3 = 1 := by
      have := hsum
      simp only [List.sum_cons, List.sum_nil] at this
      linarith
    have hp : weightedSum [w0, w1, w2, w3] [a, b, c, d] =
        forward_map .tetrahedron [a, b, c, d] ⟨w1, w2, w3⟩ := by
      simp only [forward_map, weightedSum, shapeWeights, List.zip_cons_cons,
        List.zip_nil_right, List.foldl_cons, List.foldl_nil, ptZero,
        Pt.mk.injEq]
      refine ⟨by linear_combination a.x * hsum2,
        by linear_combination a.y * hsum2,
        by linear_combination a.z * hsum2⟩
    rw [hp]
    exact collision_true_of_closed_tetrahedron a b c d w1 w2 w3 hdet hw1 hw2
      hw3 (by linarith)

/-- C7 counterexample: the claim quantifies over adjacent non-degenerate
cells of any shape, but for the non-affine shapes the collision check rests
on the capped Newton inversion: the two dart quadrilaterals — both
non-degenerate by the vertex-set predicate — share the physical edge from
(0,0) to (2,0), yet at its midpoint (1,0) both inversions meet a singular
Jacobian, so `collision_cell_point` returns false for both cells. -/
theorem shared_face_point_fails_on_quads :
    nondegenerate .quadrilateral dartQuad = true ∧
    nondegenerate .quadrilateral dartQuadMirror = true ∧
    (Pt.mk 0 0 0 ∈ dartQuad ∧ Pt.mk 2 0 0 ∈ dartQuad) ∧
    (Pt.mk 0 0 0 ∈ dartQuadMirror ∧ Pt.mk 2 0 0 ∈ dartQuadMirror) ∧
    collision_cell_point dartQuad .quadrilateral
      (weightedSum [1 / 2, 1 / 2] [⟨0, 0, 0⟩, ⟨2, 0, 0⟩]) = false ∧
    collision_cell_point dartQuadMirror .quadrilateral
      (weightedSum [1 / 2, 1 / 2] [⟨0, 0, 0⟩, ⟨2, 0, 0⟩]) = false := by
  refine ⟨?_, ?_, ⟨?_, ?_⟩, ⟨?_, ?_⟩, ?_, ?_⟩ <;> with_unfolding_all decide

/-- C7 (amended): for a point on a face shared by two adjacent
non-degenerate affine (simplex) cells — any convex combination of vertices
common to both cells, the shared vertices sitting at arbitrary positions in
each cell's vertex list — `collision_cell_point` returns true for at least
one of the two cells (indeed for each) and never false for both: the
boundary is inclusive under the positive inside-test tolerance. -/
theorem shared_face_point_collides_affine (shape : CellType)
    (verts1 verts2 : List Pt) (face : List Pt) (ls : List ℚ)
    (hsh : affineShape shape = true)
    (hnd1 : nondegenerate shape verts1 = true)
    (hnd2 : nondegenerate shape verts2 = true)
    (hf1 : ∀ q ∈ face, q ∈ verts1) (hf2 : ∀ q ∈ face, q ∈ verts2)
    (hlen : ls.length = face.length) (hpos : ∀ l ∈ ls, 0 ≤ l)
    (hsum : ls.sum = 1) :
    (collision_cell_point verts1 shape (weightedSum ls face) = true ∨
     collision_cell_point verts2 shape (weightedSum ls face) = true) ∧
    ¬(collision_cell_point verts1 shape (weightedSum ls face) = false ∧
      collision_cell_point verts2 shape (weightedSum ls face) =
        false) := by
  obtain ⟨ws1, e1, p1, s1, q1⟩ :=
    exists_full_weights verts1 face ls hlen hf1 hpos
  obtain ⟨ws2, e2, p2, s2, q2⟩ :=
    exists_full_weights verts2 face ls hlen hf2 hpos
  have h1 : collision_cell_point verts1 shape (weightedSum ls face) =
      true := by
    rw [← q1]
    exact collision_true_of_convex_combo shape verts1 ws1 hsh hnd1 e1 p1
      (by rw [s1, hsum])
  have h2 : collision_cell_point verts2 shape (weightedSum ls face) =
      true := by
    rw [← q2]
    exact collision_true_of_convex_combo shape verts2 ws2 hsh hnd2 e2 p2
      (by rw [s2, hsum])
  exact ⟨Or.inl h1, fun hb => by rw [h2] at hb; cases hb.2⟩

/-- Witness for the amended C7: the spec's two unit triangles sharing the
hypotenuse from (1,0) to (0,1), tested at its midpoint. -/
theorem shared_face_point_collides_affine_witness :
    (collision_cell_point [⟨0, 0, 0⟩, ⟨1, 0, 0⟩, ⟨0, 1, 0⟩] .triangle
        (weightedSum [1 / 2, 1 / 2] [⟨1, 0, 0⟩, ⟨0, 1, 0⟩]) = true ∨
     collision_cell_point [⟨1, 0, 0⟩, ⟨0, 1, 0⟩, ⟨1, 1, 0⟩] .triangle
        (weightedSum [1 / 2, 1 / 2] [⟨1, 0, 0⟩, ⟨0, 1, 0⟩]) = true) ∧
    ¬(collision_cell_point [⟨0, 0, 0⟩, ⟨1, 0, 0⟩, ⟨0, 1, 0⟩] .triangle
        (weightedSum [1 / 2, 1 / 2] [⟨1, 0, 0⟩, ⟨0, 1, 0⟩]) = false ∧
      collision_cell_point [⟨1, 0, 0⟩, ⟨0, 1, 0⟩, ⟨1, 1, 0⟩] .triangle
        (weightedSum [1 / 2, 1 / 2] [⟨1, 0, 0⟩, ⟨0, 1, 0⟩]) = false) :=
  shared_face_point_collides_affine .triangle
    [⟨0, 0, 0⟩, ⟨1, 0, 0⟩, ⟨0, 1, 0⟩] [⟨1, 0, 0⟩, ⟨0, 1, 0⟩, ⟨1, 1, 0⟩]
    [⟨1, 0, 0⟩, ⟨0, 1, 0⟩] [1 / 2, 1 / 2]
    (by decide) (by with_unfolding_all decide)
    (by with_unfolding_all decide) (by with_unfolding_all decide)
    (by with_unfolding_all decide) (by decide)
    (by with_unfolding_all decide) (by with_unfolding_all decide)

end DolfinxMPC
